import Mathlib

/-! # Lab_6: expression trees, `CopySyntaxTree` and `FoldConstants`

A shallow embedding of `src/Lab_6/Lab_6.cpp`.

* `Double` models the C++ `double` the program computes with: IEEE 754 binary64 with
  round-to-nearest-even, one NaN (payloads are not modelled).
* `Expression` is the class hierarchy `Number`, `BinaryOperation`, `FunctionCall`, `Variable`.
  A pointer that may be null is an `Option Expression` (`none` is the null pointer).
* A computation that can abort on an `assert`, or run into undefined behaviour, returns an
  `Option`: `none` means that the C++ program does not produce a value.
* For the claim on which node objects a transformer allocates, the methods are embedded a
  second time over an explicit heap (`Node`, `Heap`, `transformAt`), with the addresses of the
  children in place of the children; `treeAt` reads the tree under an address back as a value,
  and the two embeddings are proved to agree.
-/

namespace Lab6

set_option maxRecDepth 8000

/-! ## The `double` type -/

/-- A value of the C++ type `double` (IEEE 754 binary64).  `fin neg mant exp` is the finite value
`(-1)^neg * mant * 2^exp`; the arithmetic below only produces the canonical form, where
`exp = -1074` and `mant < 2^52` (zero and subnormal numbers) or `2^52 ≤ mant < 2^53` and
`-1074 ≤ exp ≤ 971` (normal numbers). -/
inductive Double where
  | nan : Double
  | inf (neg : Bool) : Double
  | fin (neg : Bool) (mant : Nat) (exp : Int) : Double
  deriving DecidableEq

namespace Double

/-- The loop of `log2`, at most `fuel` halvings. -/
def log2Aux : Nat → Nat → Nat
  | 0, _ => 0
  | fuel + 1, n => if n < 2 then 0 else log2Aux fuel (n / 2) + 1

/-- The position of the highest set bit: `2^(log2 n) ≤ n < 2^(log2 n + 1)` for positive `n`. -/
def log2 (n : Nat) : Nat := log2Aux n n

/-- The double nearest to the positive rational `n / d` (ties to even), with the sign `neg`;
`d` is positive.  Overflow gives an infinity, `n = 0` a signed zero. -/
def round (neg : Bool) (n d : Nat) : Double :=
  if n = 0 then fin neg 0 (-1074) else
    -- `E` is the integer with `2^E ≤ n / d < 2^(E+1)`
    let k : Int := (log2 n : Int) - (log2 d : Int)
    let reaches : Bool := if 0 ≤ k then d * 2 ^ k.toNat ≤ n else d ≤ n * 2 ^ (-k).toNat
    let E : Int := if reaches then k else k - 1
    -- the exponent of the unit in the last place
    let q : Int := max (E - 52) (-1074)
    let N : Nat := if q < 0 then n * 2 ^ (-q).toNat else n
    let D : Nat := if q < 0 then d else d * 2 ^ q.toNat
    let m0 : Nat := N / D
    let r : Nat := N % D
    let m : Nat := if D < 2 * r ∨ (2 * r = D ∧ m0 % 2 = 1) then m0 + 1 else m0
    let m1 : Nat := if m = 2 ^ 53 then 2 ^ 52 else m
    let q1 : Int := if m = 2 ^ 53 then q + 1 else q
    if 971 < q1 then inf neg else fin neg m1 q1

/-- The double nearest to `(-1)^neg * n * 2^e`. -/
def roundScaled (neg : Bool) (n : Nat) (e : Int) : Double :=
  if 0 ≤ e then round neg (n * 2 ^ e.toNat) 1 else round neg n (2 ^ (-e).toNat)

/-- Unary minus. -/
def neg : Double → Double
  | nan => nan
  | inf s => inf (!s)
  | fin s m e => fin (!s) m e

/-- The operator `+` of `double`. -/
def add : Double → Double → Double
  | nan, _ => nan
  | _, nan => nan
  | inf s, inf t => if s = t then inf s else nan
  | inf s, fin _ _ _ => inf s
  | fin _ _ _, inf t => inf t
  | fin s m e, fin t n f =>
    let g : Int := min e f
    let x : Int := (if s then -1 else 1) * ((m * 2 ^ (e - g).toNat : Nat) : Int)
    let y : Int := (if t then -1 else 1) * ((n * 2 ^ (f - g).toNat : Nat) : Int)
    let z : Int := x + y
    if z = 0 then fin (s && t) 0 (-1074) else roundScaled (decide (z < 0)) z.natAbs g

/-- The operator `-` of `double`. -/
def sub (x y : Double) : Double := add x (neg y)

/-- The operator `*` of `double`. -/
def mul : Double → Double → Double
  | nan, _ => nan
  | _, nan => nan
  | inf s, inf t => inf (xor s t)
  | inf s, fin t n _ => if n = 0 then nan else inf (xor s t)
  | fin s m _, inf t => if m = 0 then nan else inf (xor s t)
  | fin s m e, fin t n f => roundScaled (xor s t) (m * n) (e + f)

/-- The operator `/` of `double`; dividing by zero gives an infinity or NaN. -/
def div : Double → Double → Double
  | nan, _ => nan
  | _, nan => nan
  | inf _, inf _ => nan
  | inf s, fin t _ _ => inf (xor s t)
  | fin s _ _, inf t => fin (xor s t) 0 (-1074)
  | fin s m e, fin t n f =>
    if n = 0 then (if m = 0 then nan else inf (xor s t))
    else if f ≤ e then round (xor s t) (m * 2 ^ (e - f).toNat) n
    else round (xor s t) m (n * 2 ^ (f - e).toNat)

/-- The loop of `isqrt`: the bits of the root from bit `k - 1` down. -/
def isqrtAux (n : Nat) : Nat → Nat → Nat
  | 0, r => r
  | k + 1, r => if (r + 2 ^ k) * (r + 2 ^ k) ≤ n then isqrtAux n k (r + 2 ^ k) else isqrtAux n k r

/-- The integer square root, rounded down. -/
def isqrt (n : Nat) : Nat := isqrtAux n (log2 n / 2 + 1) 0

/-- The function `sqrt` of the C library; the square root of a negative number is NaN. -/
def sqrt : Double → Double
  | nan => nan
  | inf s => if s then nan else inf false
  | fin s m e =>
    if m = 0 then fin s 0 (-1074)
    else if s then nan
    else
      -- `m * 2^e = M * 2^(2 * h)` with `M ≥ 2^108`, so that the root has 55 bits or more
      let shift : Nat := 108 + (e % 2).toNat
      let M : Nat := m * 2 ^ shift
      let h : Int := (e - shift) / 2
      let s0 : Nat := isqrt M
      let sticky : Nat := if s0 * s0 = M then 0 else 1
      roundScaled false (2 * s0 + sticky) (h - 1)

/-- The function `fabs` of the C library. -/
def fabs : Double → Double
  | nan => nan
  | inf _ => inf false
  | fin _ m e => fin false m e

instance : Add Double := ⟨add⟩
instance : Sub Double := ⟨sub⟩
instance : Mul Double := ⟨mul⟩
instance : Div Double := ⟨div⟩

/-- A decimal literal of the source, such as `32.0`, is the nearest double. -/
instance : OfScientific Double where
  ofScientific m s e := if s then round false m (10 ^ e) else round false (m * 10 ^ e) 1

end Double

/-! ## The expression tree -/

/-- The class hierarchy under `Expression`: one constructor for each of the four structs, with
their data members.  A child is a tree, never a null pointer: the constructors below
(`newBinaryOperation`, `newFunctionCall`) refuse a null child. -/
inductive Expression where
  | Number (value : Double) : Expression
  | BinaryOperation (left : Expression) (op : Int) (right : Expression) : Expression
  | FunctionCall (name : String) (arg : Expression) : Expression
  | Variable (name : String) : Expression
  deriving DecidableEq

open Expression

/-- Enumerator `BinaryOperation::PLUS = '+'`. -/
def PLUS : Int := 43
/-- Enumerator `BinaryOperation::MINUS = '-'`. -/
def MINUS : Int := 45
/-- Enumerator `BinaryOperation::DIV = '/'`. -/
def DIV : Int := 47
/-- Enumerator `BinaryOperation::MUL = '*'`. -/
def MUL : Int := 42

/-- Constructor call `new Number(value)`: no assertion, it always succeeds. -/
def newNumber (value : Double) : Option Expression :=
  some (Number value)

/-- Constructor call `new BinaryOperation(left, op, right)`: the body is
`assert(left_ && right_)`; the operator code is stored unchecked. -/
def newBinaryOperation (left : Option Expression) (op : Int) (right : Option Expression) :
    Option Expression :=
  match left, right with
  | some l, some r => some (BinaryOperation l op r)
  | _, _ => none

/-- Constructor call `new FunctionCall(name, arg)`: the body is `assert(arg_)` and
`assert(name_ == "sqrt" || name_ == "abs")`. -/
def newFunctionCall (name : String) (arg : Option Expression) : Option Expression :=
  match arg with
  | some a => if name = "sqrt" ∨ name = "abs" then some (FunctionCall name a) else none
  | none => none

/-- Constructor call `new Variable(name)`: no assertion, it always succeeds. -/
def newVariable (name : String) : Option Expression :=
  some (Variable name)

/-- The virtual function `evaluate`.  In `BinaryOperation::evaluate` the `switch` has no
`default`: with any other operator code control reaches the end of the function without a
`return`, which is undefined behaviour, here `none`. -/
def evaluate : Expression → Option Double
  | Number value => some value
  | BinaryOperation l op r =>
    match evaluate l, evaluate r with
    | some left, some right =>
      if op = PLUS then some (left + right)
      else if op = MINUS then some (left - right)
      else if op = DIV then some (left / right)
      else if op = MUL then some (left * right)
      else none
    | _, _ => none
  | FunctionCall name arg =>
    match evaluate arg with
    | some a => if name = "sqrt" then some (Double.sqrt a) else some (Double.fabs a)
    | none => none
  | Variable _ => some 0.0

/-- The test `dynamic_cast<Number*>(e)`: non-null exactly when `e` is a `Number`. -/
def isNumber : Expression → Bool
  | Number _ => true
  | _ => false

/-- The call `e->transform(&tr)` for a `CopySyntaxTree tr`: the four `transform...` methods, reached
through the double dispatch. -/
def CopySyntaxTree.transform : Expression → Option Expression
  | Number value => newNumber value
  | BinaryOperation l op r =>
    match CopySyntaxTree.transform l, CopySyntaxTree.transform r with
    | some newleft, some newright => newBinaryOperation (some newleft) op (some newright)
    | _, _ => none
  | FunctionCall name arg =>
    match CopySyntaxTree.transform arg with
    | some newarg => newFunctionCall name (some newarg)
    | none => none
  | Variable name => newVariable name

/-- The call `e->transform(&tr)` for a `FoldConstants tr`.  When the folded children are numbers the
method builds a temporary node over them, evaluates it and wraps the value in a `Number`. -/
def FoldConstants.transform : Expression → Option Expression
  | Number value => newNumber value
  | BinaryOperation l op r =>
    match FoldConstants.transform l, FoldConstants.transform r with
    | some newleft, some newright =>
      if isNumber newleft && isNumber newright then
        match newBinaryOperation (some newleft) op (some newright) with
        | some tmp =>
          match evaluate tmp with
          | some v => newNumber v
          | none => none
        | none => none
      else newBinaryOperation (some newleft) op (some newright)
    | _, _ => none
  | FunctionCall name arg =>
    match FoldConstants.transform arg with
    | some newarg =>
      if isNumber newarg then
        match newFunctionCall name (some newarg) with
        | some tmp =>
          match evaluate tmp with
          | some v => newNumber v
          | none => none
        | none => none
      else newFunctionCall name (some newarg)
    | none => none
  | Variable name => newVariable name

/-! ## Predicates of the specification -/

/-- A valid tree: every operator is one of `+ - / *` and every function name is `sqrt` or
`abs` (a child is never null in `Expression`). -/
def valid : Expression → Bool
  | Number _ => true
  | BinaryOperation l op r =>
    (op = PLUS || op = MINUS || op = DIV || op = MUL) && valid l && valid r
  | FunctionCall name arg => (name = "sqrt" || name = "abs") && valid arg
  | Variable _ => true

/-- Whether a `Variable` node occurs anywhere in the tree. -/
def hasVariable : Expression → Bool
  | Number _ => false
  | BinaryOperation l _ r => hasVariable l || hasVariable r
  | FunctionCall _ arg => hasVariable arg
  | Variable _ => true

/-- The subtrees of a tree: the tree itself and the subtrees of its children. -/
def subtrees : Expression → List Expression
  | Number value => [Number value]
  | BinaryOperation l op r => BinaryOperation l op r :: (subtrees l ++ subtrees r)
  | FunctionCall name arg => FunctionCall name arg :: subtrees arg
  | Variable name => [Variable name]

/-- The tree that `main` builds: `abs(var * sqrt(32 - 16))`. -/
def callAbs : Expression :=
  FunctionCall "abs"
    (BinaryOperation (Variable "var") MUL
      (FunctionCall "sqrt" (BinaryOperation (Number 32.0) MINUS (Number 16.0))))

/-- Folded normal form: no `BinaryOperation` node has two `Number` children and no
`FunctionCall` node has a `Number` argument, anywhere in the tree. -/
def foldedNormal : Expression → Bool
  | Number _ => true
  | BinaryOperation l _ r => !(isNumber l && isNumber r) && foldedNormal l && foldedNormal r
  | FunctionCall _ arg => !isNumber arg && foldedNormal arg
  | Variable _ => true

/-- The names of the `Variable` nodes of a tree, from left to right. -/
def variableNames : Expression → List String
  | Number _ => []
  | BinaryOperation l _ r => variableNames l ++ variableNames r
  | FunctionCall _ arg => variableNames arg
  | Variable name => [name]

/-- The number of nodes of a tree. -/
def size : Expression → Nat
  | Number _ => 1
  | BinaryOperation l _ r => size l + size r + 1
  | FunctionCall _ arg => size arg + 1
  | Variable _ => 1

/-- The nesting depth of a tree: a leaf has depth 1. -/
def depth : Expression → Nat
  | Number _ => 1
  | BinaryOperation l _ r => max (depth l) (depth r) + 1
  | FunctionCall _ arg => depth arg + 1
  | Variable _ => 1

/-! ## The folding variant of the specification -/

/-- The value `a op b` computed from the operand values, for the four operators. -/
def applyOperator (op : Int) (a b : Double) : Option Double :=
  if op = PLUS then some (a + b)
  else if op = MINUS then some (a - b)
  else if op = DIV then some (a / b)
  else if op = MUL then some (a * b)
  else none

/-- The value `sqrt(a)` or `abs(a)` computed from the argument value. -/
def applyFunction (name : String) (a : Double) : Option Double :=
  if name = "sqrt" then some (Double.sqrt a)
  else if name = "abs" then some (Double.fabs a)
  else none

/-- The variant of `FoldConstants` that the specification describes, written from its words and
not from the source: fold the children; when both folded children of a binary operation are
`Number(a)` and `Number(b)` return `Number(a op b)`, when the folded argument of a function call
is `Number(a)` return `Number(sqrt(a))` or `Number(abs(a))`, computed from the operand values
without an intermediate node; otherwise rebuild the composite node over the folded children
with the same operator or name. -/
def foldDirect : Expression → Option Expression
  | Number value => some (Number value)
  | BinaryOperation l op r =>
    match foldDirect l, foldDirect r with
    | some (Number a), some (Number b) =>
      match applyOperator op a b with
      | some v => some (Number v)
      | none => none
    | some newleft, some newright => some (BinaryOperation newleft op newright)
    | _, _ => none
  | FunctionCall name arg =>
    match foldDirect arg with
    | some (Number a) =>
      match applyFunction name a with
      | some v => some (Number v)
      | none => none
    | some newarg => some (FunctionCall name newarg)
    | none => none
  | Variable name => some (Variable name)

/-! ## The trees in memory

The embedding above takes a tree as a value.  To speak of which node objects a transformer
allocates and which it only reads, the same methods are embedded once more over an explicit
heap: a node object holds the addresses of its children, `new` appends an object to the heap,
and nothing else writes to it (the data members are private and every method is `const`). -/

/-- A node object in memory: the data members of the four structs, a child pointer being the
address of the child. -/
inductive Node where
  | Number (value : Double) : Node
  | BinaryOperation (left : Nat) (op : Int) (right : Nat) : Node
  | FunctionCall (name : String) (arg : Nat) : Node
  | Variable (name : String) : Node
  deriving DecidableEq

/-- The heap: the node objects allocated so far; the address of an object is its position. -/
abbrev Heap := List Node

/-- The expression `new`: the object is placed at a fresh address, after every object that
exists, and no object that exists is touched. -/
def allocate (h : Heap) (n : Node) : Heap × Nat :=
  (h ++ [n], h.length)

/-- The virtual function `evaluate` on the object at address `p`; `fuel` bounds the depth of
the recursion.  No value comes back from a dangling pointer, from an operator code outside the
`switch`, or when the fuel runs out. -/
def evaluateAt : Nat → Heap → Nat → Option Double
  | 0, _, _ => none
  | fuel + 1, h, p =>
    match h[p]? with
    | some (Node.Number value) => some value
    | some (Node.BinaryOperation l op r) =>
      match evaluateAt fuel h l, evaluateAt fuel h r with
      | some left, some right =>
        if op = PLUS then some (left + right)
        else if op = MINUS then some (left - right)
        else if op = DIV then some (left / right)
        else if op = MUL then some (left * right)
        else none
      | _, _ => none
    | some (Node.FunctionCall name arg) =>
      match evaluateAt fuel h arg with
      | some a => if name = "sqrt" then some (Double.sqrt a) else some (Double.fabs a)
      | none => none
    | some (Node.Variable _) => some 0.0
    | none => none

/-- The test `dynamic_cast<Number*>(p)` on an address. -/
def isNumberAt (h : Heap) (p : Nat) : Bool :=
  match h[p]? with
  | some (Node.Number _) => true
  | _ => false

/-- The call `p->transform(&tr)` for a `CopySyntaxTree tr` on the object at address `p`: the
result is the heap after the call and the address returned.  The left child is transformed
before the right one. -/
def CopySyntaxTree.transformAt : Nat → Heap → Nat → Option (Heap × Nat)
  | 0, _, _ => none
  | fuel + 1, h, p =>
    match h[p]? with
    | some (Node.Number value) => some (allocate h (Node.Number value))
    | some (Node.BinaryOperation l op r) =>
      match CopySyntaxTree.transformAt fuel h l with
      | some (h1, newleft) =>
        match CopySyntaxTree.transformAt fuel h1 r with
        | some (h2, newright) => some (allocate h2 (Node.BinaryOperation newleft op newright))
        | none => none
      | none => none
    | some (Node.FunctionCall name arg) =>
      match CopySyntaxTree.transformAt fuel h arg with
      | some (h1, newarg) =>
        if name = "sqrt" ∨ name = "abs" then some (allocate h1 (Node.FunctionCall name newarg))
        else none
      | none => none
    | some (Node.Variable name) => some (allocate h (Node.Variable name))
    | none => none

/-- The call `p->transform(&tr)` for a `FoldConstants tr` on the object at address `p`.  The
temporary node is allocated, evaluated, and left behind on the heap. -/
def FoldConstants.transformAt : Nat → Heap → Nat → Option (Heap × Nat)
  | 0, _, _ => none
  | fuel + 1, h, p =>
    match h[p]? with
    | some (Node.Number value) => some (allocate h (Node.Number value))
    | some (Node.BinaryOperation l op r) =>
      match FoldConstants.transformAt fuel h l with
      | some (h1, newleft) =>
        match FoldConstants.transformAt fuel h1 r with
        | some (h2, newright) =>
          if isNumberAt h2 newleft && isNumberAt h2 newright then
            match evaluateAt (fuel + 1) (allocate h2 (Node.BinaryOperation newleft op newright)).1
                (allocate h2 (Node.BinaryOperation newleft op newright)).2 with
            | some v =>
              some (allocate (allocate h2 (Node.BinaryOperation newleft op newright)).1
                (Node.Number v))
            | none => none
          else some (allocate h2 (Node.BinaryOperation newleft op newright))
        | none => none
      | none => none
    | some (Node.FunctionCall name arg) =>
      match FoldConstants.transformAt fuel h arg with
      | some (h1, newarg) =>
        if name = "sqrt" ∨ name = "abs" then
          if isNumberAt h1 newarg then
            match evaluateAt (fuel + 1) (allocate h1 (Node.FunctionCall name newarg)).1
                (allocate h1 (Node.FunctionCall name newarg)).2 with
            | some v =>
              some (allocate (allocate h1 (Node.FunctionCall name newarg)).1 (Node.Number v))
            | none => none
          else some (allocate h1 (Node.FunctionCall name newarg))
        else none
      | none => none
    | some (Node.Variable name) => some (allocate h (Node.Variable name))
    | none => none

/-- The tree, as a value, that the objects under address `p` form; `fuel` bounds its depth. -/
def treeAt : Nat → Heap → Nat → Option Expression
  | 0, _, _ => none
  | fuel + 1, h, p =>
    match h[p]? with
    | some (Node.Number value) => some (Number value)
    | some (Node.BinaryOperation l op r) =>
      match treeAt fuel h l, treeAt fuel h r with
      | some left, some right => some (BinaryOperation left op right)
      | _, _ => none
    | some (Node.FunctionCall name arg) =>
      match treeAt fuel h arg with
      | some a => some (FunctionCall name a)
      | none => none
    | some (Node.Variable name) => some (Variable name)
    | none => none

/-- The node at address `q` belongs to the tree under address `p`: it is reached from `p` along
child pointers. -/
inductive Reachable (h : Heap) : Nat → Nat → Prop where
  | root (p : Nat) : Reachable h p p
  | left (p l r q : Nat) (op : Int) :
      h[p]? = some (Node.BinaryOperation l op r) → Reachable h l q → Reachable h p q
  | right (p l r q : Nat) (op : Int) :
      h[p]? = some (Node.BinaryOperation l op r) → Reachable h r q → Reachable h p q
  | arg (p a q : Nat) (name : String) :
      h[p]? = some (Node.FunctionCall name a) → Reachable h a q → Reachable h p q

/-- The heap that `main` has built before it calls `transform`, in the order of its `new`
expressions: `n32`, `n16`, `minus`, `callSqrt`, `var`, `mult`, `callAbs` (at address 6). -/
def mainHeap : Heap :=
  [Node.Number 32.0, Node.Number 16.0, Node.BinaryOperation 0 MINUS 1,
    Node.FunctionCall "sqrt" 2, Node.Variable "var", Node.BinaryOperation 4 MUL 3,
    Node.FunctionCall "abs" 5]

/-- The tree under `p'` in the heap `h'` is independent of the tree under `p` in the earlier
heap `h`: every object of `h` is in `h'` with the same contents, and every node of the tree
under `p'` is an object that `h` did not have and is not a node of the tree under `p`. -/
def Independent (h : Heap) (p : Nat) (h' : Heap) (p' : Nat) : Prop :=
  (∀ (a : Nat) (n : Node), h[a]? = some n → h'[a]? = some n) ∧
  ∀ q : Nat, Reachable h' p' q → h.length ≤ q ∧ ¬ Reachable h' p q

/-! ## Lemmas -/

theorem valid_binop (l r : Expression) (op : Int) :
    valid (BinaryOperation l op r) = true ↔
      (op = PLUS ∨ op = MINUS ∨ op = DIV ∨ op = MUL) ∧ valid l = true ∧ valid r = true := by
  simp [valid, and_assoc, or_assoc]

theorem valid_fcall (name : String) (arg : Expression) :
    valid (FunctionCall name arg) = true ↔
      (name = "sqrt" ∨ name = "abs") ∧ valid arg = true := by
  simp [valid]

/-- The value of a binary operation over two values, for a supported operator. -/
theorem evaluate_binop (l r : Expression) (op : Int) (a b : Double)
    (hop : op = PLUS ∨ op = MINUS ∨ op = DIV ∨ op = MUL)
    (hl : evaluate l = some a) (hr : evaluate r = some b) :
    ∃ v, evaluate (BinaryOperation l op r) = some v := by
  rcases hop with h | h | h | h <;> subst h <;> simp [evaluate, hl, hr, PLUS, MINUS, DIV, MUL]

theorem evaluate_binop_congr (l r l' r' : Expression) (op : Int)
    (hl : evaluate l' = evaluate l) (hr : evaluate r' = evaluate r) :
    evaluate (BinaryOperation l' op r') = evaluate (BinaryOperation l op r) := by
  simp only [evaluate, hl, hr]

theorem evaluate_fcall_congr (arg arg' : Expression) (name : String)
    (ha : evaluate arg' = evaluate arg) :
    evaluate (FunctionCall name arg') = evaluate (FunctionCall name arg) := by
  simp only [evaluate, ha]

theorem evaluate_fcall (arg : Expression) (name : String) (a : Double)
    (ha : evaluate arg = some a) :
    ∃ v, evaluate (FunctionCall name arg) = some v := by
  by_cases h : name = "sqrt" <;> simp [evaluate, ha, h]

theorem isNumber_iff (e : Expression) : isNumber e = true ↔ ∃ v, e = Number v := by
  cases e <;> simp [isNumber]

/-- What `FoldConstants` does on a valid tree: it returns a tree, with the value of the input,
which is a `Number` exactly when the input has no variable, and which is valid. -/
theorem fold_core (t : Expression) (h : valid t = true) :
    ∃ t', FoldConstants.transform t = some t' ∧ evaluate t' = evaluate t ∧
      isNumber t' = !hasVariable t ∧ valid t' = true ∧ ∃ v, evaluate t = some v := by
  induction t with
  | Number value => exact ⟨Number value, rfl, rfl, rfl, rfl, value, rfl⟩
  | Variable name => exact ⟨Variable name, rfl, rfl, rfl, rfl, 0.0, rfl⟩
  | FunctionCall name arg ih =>
    obtain ⟨hn, ha⟩ := (valid_fcall name arg).1 h
    obtain ⟨a', hf, he, hnum, hva, v, hv⟩ := ih ha
    obtain ⟨w, hw⟩ := evaluate_fcall arg name v hv
    have hw' : evaluate (FunctionCall name a') = some w := by
      rw [evaluate_fcall_congr arg a' name he, hw]
    cases hnb : isNumber a' with
    | true =>
      refine ⟨Number w, ?_, ?_, ?_, rfl, w, hw⟩
      · simp [FoldConstants.transform, hf, hnb, newFunctionCall, hn, hw', newNumber]
      · rw [hw]; rfl
      · rw [hnb] at hnum
        simp [isNumber, hasVariable, ← hnum]
    | false =>
      refine ⟨FunctionCall name a', ?_, ?_, ?_, ?_, w, hw⟩
      · simp [FoldConstants.transform, hf, hnb, newFunctionCall, hn]
      · exact evaluate_fcall_congr arg a' name he
      · rw [hnb] at hnum
        simp [isNumber, hasVariable, ← hnum]
      · exact (valid_fcall name a').2 ⟨hn, hva⟩
  | BinaryOperation l op r ihl ihr =>
    obtain ⟨hop, hl, hr⟩ := (valid_binop l r op).1 h
    obtain ⟨l', hfl, hel, hnl, hvl, a, ha⟩ := ihl hl
    obtain ⟨r', hfr, her, hnr, hvr, b, hb⟩ := ihr hr
    obtain ⟨w, hw⟩ := evaluate_binop l r op a b hop ha hb
    have hw' : evaluate (BinaryOperation l' op r') = some w := by
      rw [evaluate_binop_congr l r l' r' op hel her, hw]
    cases hnb : (isNumber l' && isNumber r') with
    | true =>
      refine ⟨Number w, ?_, ?_, ?_, rfl, w, hw⟩
      · simp [FoldConstants.transform, hfl, hfr, hnb, newBinaryOperation, hw', newNumber]
      · rw [hw]; rfl
      · rw [hnl, hnr] at hnb
        simp only [isNumber, hasVariable]
        revert hnb
        cases hasVariable l <;> cases hasVariable r <;> simp
    | false =>
      refine ⟨BinaryOperation l' op r', ?_, ?_, ?_, ?_, w, hw⟩
      · simp [FoldConstants.transform, hfl, hfr, hnb, newBinaryOperation]
      · exact evaluate_binop_congr l r l' r' op hel her
      · rw [hnl, hnr] at hnb
        simp only [isNumber, hasVariable]
        revert hnb
        cases hasVariable l <;> cases hasVariable r <;> simp
      · exact (valid_binop l' r' op).2 ⟨hop, hvl, hvr⟩

/-- The transformer `CopySyntaxTree` returns its input whenever every function name in it is supported: the
only assertion that can fail is the one on the name, in `newFunctionCall`. -/
theorem copy_core (t : Expression) (h : valid t = true) :
    CopySyntaxTree.transform t = some t := by
  induction t with
  | Number value => rfl
  | Variable name => rfl
  | FunctionCall name arg ih =>
    obtain ⟨hn, ha⟩ := (valid_fcall name arg).1 h
    simp [CopySyntaxTree.transform, ih ha, newFunctionCall, hn]
  | BinaryOperation l op r ihl ihr =>
    obtain ⟨_, hl, hr⟩ := (valid_binop l r op).1 h
    simp [CopySyntaxTree.transform, ihl hl, ihr hr, newBinaryOperation]

/-- Every subtree of a valid tree is valid. -/
theorem valid_of_mem_subtrees (t s : Expression) (h : valid t = true) (hs : s ∈ subtrees t) :
    valid s = true := by
  induction t with
  | Number value =>
    simp only [subtrees, List.mem_singleton] at hs
    rw [hs]; exact h
  | Variable name =>
    simp only [subtrees, List.mem_singleton] at hs
    rw [hs]; exact h
  | FunctionCall name arg ih =>
    simp only [subtrees, List.mem_cons] at hs
    rcases hs with hs | hs
    · rw [hs]; exact h
    · exact ih ((valid_fcall name arg).1 h).2 hs
  | BinaryOperation l op r ihl ihr =>
    simp only [subtrees, List.mem_cons, List.mem_append] at hs
    obtain ⟨_, hl, hr⟩ := (valid_binop l r op).1 h
    rcases hs with hs | hs | hs
    · rw [hs]; exact h
    · exact ihl hl hs
    · exact ihr hr hs

/-! ## The claims -/

/-- C1: for every valid tree `t`, `FoldConstants` returns a tree and evaluating that tree gives
the same value as evaluating `t` (both evaluations return, and return the same double). -/
theorem fold_preserves_evaluate (t : Expression) (h : valid t = true) :
    ∃ t' v, FoldConstants.transform t = some t' ∧ evaluate t = some v ∧ evaluate t' = some v := by
  obtain ⟨t', hf, he, _, _, v, hv⟩ := fold_core t h
  exact ⟨t', v, hf, hv, he.trans hv⟩

theorem fold_preserves_evaluate_witness :
    valid callAbs = true ∧
      ∃ t' v, FoldConstants.transform callAbs = some t' ∧ evaluate callAbs = some v ∧
        evaluate t' = some v :=
  ⟨by decide, fold_preserves_evaluate callAbs (by decide)⟩

/-- C2: for every valid tree `t` without a `Variable`, `FoldConstants` returns exactly one
`Number` node, and its value is the value of `t.evaluate()`. -/
theorem fold_closed_is_number (t : Expression) (h : valid t = true)
    (hv : hasVariable t = false) :
    ∃ v, FoldConstants.transform t = some (Number v) ∧ evaluate t = some v := by
  obtain ⟨t', hf, he, hnum, _, v, hev⟩ := fold_core t h
  rw [hv] at hnum
  obtain ⟨w, rfl⟩ := (isNumber_iff t').1 hnum
  refine ⟨w, hf, ?_⟩
  rw [← he]; rfl

theorem fold_closed_is_number_witness :
    valid (BinaryOperation (Number 1.0) DIV (Number 0.0)) = true ∧
      hasVariable (BinaryOperation (Number 1.0) DIV (Number 0.0)) = false ∧
      ∃ v, FoldConstants.transform (BinaryOperation (Number 1.0) DIV (Number 0.0))
          = some (Number v) ∧
        evaluate (BinaryOperation (Number 1.0) DIV (Number 0.0)) = some v :=
  ⟨by decide, by decide,
    fold_closed_is_number (BinaryOperation (Number 1.0) DIV (Number 0.0)) (by decide) (by decide)⟩

/-- C3: for every valid tree `t`: if `t` contains a `Variable`, `FoldConstants` returns a tree
that is not a `Number`; and for every subtree `s` of `t`, `FoldConstants` applied to `s` returns
a `Number` if and only if `s` contains no `Variable`. -/
theorem fold_number_iff_closed (t : Expression) (h : valid t = true) :
    (hasVariable t = true →
      ∃ t', FoldConstants.transform t = some t' ∧ ∀ v, t' ≠ Number v) ∧
    ∀ s ∈ subtrees t,
      ∃ s', FoldConstants.transform s = some s' ∧
        ((∃ v, s' = Number v) ↔ hasVariable s = false) := by
  constructor
  · intro hv
    obtain ⟨t', hf, _, hnum, _, _⟩ := fold_core t h
    refine ⟨t', hf, ?_⟩
    rintro v rfl
    rw [hv] at hnum
    simp [isNumber] at hnum
  · intro s hs
    obtain ⟨s', hf, _, hnum, _, _⟩ := fold_core s (valid_of_mem_subtrees t s h hs)
    refine ⟨s', hf, ?_⟩
    rw [← isNumber_iff, hnum]
    cases hasVariable s <;> simp

theorem fold_number_iff_closed_witness :
    valid callAbs = true ∧
      ((hasVariable callAbs = true →
        ∃ t', FoldConstants.transform callAbs = some t' ∧ ∀ v, t' ≠ Number v) ∧
      ∀ s ∈ subtrees callAbs,
        ∃ s', FoldConstants.transform s = some s' ∧
          ((∃ v, s' = Number v) ↔ hasVariable s = false)) :=
  ⟨by decide, fold_number_iff_closed callAbs (by decide)⟩

/-- C4: for every valid tree `t`, `CopySyntaxTree` returns a tree and evaluating that tree gives
the same value as evaluating `t`. -/
theorem copy_preserves_evaluate (t : Expression) (h : valid t = true) :
    ∃ t' v, CopySyntaxTree.transform t = some t' ∧ evaluate t = some v ∧ evaluate t' = some v := by
  obtain ⟨_, _, _, _, _, v, hv⟩ := fold_core t h
  exact ⟨t, v, copy_core t h, hv, hv⟩

theorem copy_preserves_evaluate_witness :
    valid callAbs = true ∧
      ∃ t' v, CopySyntaxTree.transform callAbs = some t' ∧ evaluate callAbs = some v ∧
        evaluate t' = some v :=
  ⟨by decide, copy_preserves_evaluate callAbs (by decide)⟩

/-- C5: for every valid tree `t`, `CopySyntaxTree` returns a tree equal to `t`: the same node
kind at every position, with the same value, name and operator, and the copies of the children
in the same order. -/
theorem copy_is_identity (t : Expression) (h : valid t = true) :
    CopySyntaxTree.transform t = some t :=
  copy_core t h

theorem copy_is_identity_witness :
    valid callAbs = true ∧ CopySyntaxTree.transform callAbs = some callAbs :=
  ⟨by decide, copy_is_identity callAbs (by decide)⟩

/-- C6: for every valid tree `t`, folding the folded tree returns a tree with the same value as
the folded tree; and when `t` has no `Variable`, folding the folded tree returns a single
`Number` node. -/
theorem fold_twice (t : Expression) (h : valid t = true) :
    ∃ t1 t2 v, FoldConstants.transform t = some t1 ∧ FoldConstants.transform t1 = some t2 ∧
      evaluate t1 = some v ∧ evaluate t2 = some v ∧
      (hasVariable t = false → ∃ w, t2 = Number w) := by
  obtain ⟨t1, hf1, he1, hn1, hv1, v, hv⟩ := fold_core t h
  obtain ⟨t2, hf2, he2, hn2, _, _⟩ := fold_core t1 hv1
  refine ⟨t1, t2, v, hf1, hf2, he1.trans hv, (he2.trans he1).trans hv, ?_⟩
  intro hnv
  rw [hnv] at hn1
  obtain ⟨w, rfl⟩ := (isNumber_iff t1).1 hn1
  simp only [FoldConstants.transform, newNumber, Option.some.injEq] at hf2
  exact ⟨w, hf2.symm⟩

theorem fold_twice_witness :
    valid (FunctionCall "sqrt" (BinaryOperation (Number 32.0) MINUS (Number 16.0))) = true ∧
      ∃ t1 t2 v,
        FoldConstants.transform
            (FunctionCall "sqrt" (BinaryOperation (Number 32.0) MINUS (Number 16.0))) = some t1 ∧
        FoldConstants.transform t1 = some t2 ∧
        evaluate t1 = some v ∧ evaluate t2 = some v ∧
        (hasVariable (FunctionCall "sqrt" (BinaryOperation (Number 32.0) MINUS (Number 16.0)))
            = false → ∃ w, t2 = Number w) :=
  ⟨by decide,
    fold_twice (FunctionCall "sqrt" (BinaryOperation (Number 32.0) MINUS (Number 16.0)))
      (by decide)⟩

/-- C7: for the tree `abs(var * sqrt(32 - 16))` that `main` builds, `evaluate` returns `0.0`;
`FoldConstants` returns `FunctionCall("abs", BinaryOperation(Variable("var"), MUL, Number(4.0)))`;
and evaluating that folded tree returns `0.0`. -/
theorem main_scenario :
    evaluate callAbs = some 0.0 ∧
    FoldConstants.transform callAbs
      = some (FunctionCall "abs" (BinaryOperation (Variable "var") MUL (Number 4.0))) ∧
    evaluate (FunctionCall "abs" (BinaryOperation (Variable "var") MUL (Number 4.0)))
      = some 0.0 := by
  decide

/-- C8: `FoldConstants` applied to `(10 - 4) / 2` returns the single node `Number(3.0)`. -/
theorem fold_ten_minus_four_over_two :
    FoldConstants.transform
        (BinaryOperation (BinaryOperation (Number 10.0) MINUS (Number 4.0)) DIV (Number 2.0))
      = some (Number 3.0) := by
  decide

/-- C9, as stated, fails: constructing `Variable("")` succeeds and gives a `Variable` node with
the empty name. -/
theorem variable_empty_name_constructs :
    newVariable "" ≠ none ∧ newVariable "" = some (Variable "") := by
  decide

/-- C9, amended: constructing a `Variable` succeeds for every name, the empty name included,
and gives a `Variable` node holding that name. -/
theorem variable_always_constructs (name : String) :
    newVariable name = some (Variable name) :=
  rfl

/-- C10, the code at the failing input: `BinaryOperation(Number(1.0), '%', Number(2.0))`, with
the unsupported operator code 37, is constructed without a failure, and `evaluate` on the node
then leaves the `switch` without a value. -/
theorem binop_bad_operator_constructs :
    newBinaryOperation (some (Number 1.0)) 37 (some (Number 2.0))
      = some (BinaryOperation (Number 1.0) 37 (Number 2.0)) ∧
    evaluate (BinaryOperation (Number 1.0) 37 (Number 2.0)) = none := by
  decide


/-! ## Lemmas on the shape of a folded tree -/

/-- What `FoldConstants::transformBinaryOperation` returns, when it returns. -/
theorem fold_binop_inv (l r t' : Expression) (op : Int)
    (h : FoldConstants.transform (BinaryOperation l op r) = some t') :
    ∃ l' r', FoldConstants.transform l = some l' ∧ FoldConstants.transform r = some r' ∧
      (((isNumber l' && isNumber r') = true ∧
          ∃ v, evaluate (BinaryOperation l' op r') = some v ∧ t' = Number v) ∨
        ((isNumber l' && isNumber r') = false ∧ t' = BinaryOperation l' op r')) := by
  rw [FoldConstants.transform] at h
  cases hl : FoldConstants.transform l with
  | none => simp [hl] at h
  | some l' =>
    cases hr : FoldConstants.transform r with
    | none => simp [hl, hr] at h
    | some r' =>
      refine ⟨l', r', rfl, rfl, ?_⟩
      cases hnb : (isNumber l' && isNumber r') with
      | true =>
        left
        refine ⟨rfl, ?_⟩
        simp only [hl, hr, hnb, newBinaryOperation, if_true] at h
        cases hev : evaluate (BinaryOperation l' op r') with
        | none => simp [hev] at h
        | some v =>
          simp only [hev, newNumber, Option.some.injEq] at h
          exact ⟨v, rfl, h.symm⟩
      | false =>
        right
        refine ⟨rfl, ?_⟩
        simp only [hl, hr, hnb, newBinaryOperation, Option.some.injEq] at h
        simpa using h.symm

/-- What `FoldConstants::transformFunctionCall` returns, when it returns. -/
theorem fold_fcall_inv (arg t' : Expression) (name : String)
    (h : FoldConstants.transform (FunctionCall name arg) = some t') :
    ∃ a', FoldConstants.transform arg = some a' ∧ (name = "sqrt" ∨ name = "abs") ∧
      ((isNumber a' = true ∧
          ∃ v, evaluate (FunctionCall name a') = some v ∧ t' = Number v) ∨
        (isNumber a' = false ∧ t' = FunctionCall name a')) := by
  rw [FoldConstants.transform] at h
  cases ha : FoldConstants.transform arg with
  | none => simp [ha] at h
  | some a' =>
    by_cases hn : name = "sqrt" ∨ name = "abs"
    · refine ⟨a', rfl, hn, ?_⟩
      cases hnb : isNumber a' with
      | true =>
        left
        refine ⟨rfl, ?_⟩
        simp only [ha, hnb, newFunctionCall, hn, if_true] at h
        cases hev : evaluate (FunctionCall name a') with
        | none => simp [hev] at h
        | some v =>
          simp only [hev, newNumber, Option.some.injEq] at h
          exact ⟨v, rfl, h.symm⟩
      | false =>
        right
        refine ⟨rfl, ?_⟩
        simp only [ha, hnb, newFunctionCall, hn, if_true, Option.some.injEq] at h
        simpa using h.symm
    · exfalso
      cases hnb : isNumber a' <;> simp [ha, hnb, newFunctionCall, hn] at h

/-- A folded tree is in folded normal form. -/
theorem fold_normal (t : Expression) :
    ∀ t', FoldConstants.transform t = some t' → foldedNormal t' = true := by
  induction t with
  | Number value =>
    intro t' h
    simp only [FoldConstants.transform, newNumber, Option.some.injEq] at h
    rw [← h]; rfl
  | Variable name =>
    intro t' h
    simp only [FoldConstants.transform, newVariable, Option.some.injEq] at h
    rw [← h]; rfl
  | FunctionCall name arg ih =>
    intro t' h
    obtain ⟨a', ha, _, ⟨_, v, _, rfl⟩ | ⟨hnb, rfl⟩⟩ := fold_fcall_inv arg t' name h
    · rfl
    · simp [foldedNormal, hnb, ih a' ha]
  | BinaryOperation l op r ihl ihr =>
    intro t' h
    obtain ⟨l', r', hl, hr, ⟨_, v, _, rfl⟩ | ⟨hnb, rfl⟩⟩ := fold_binop_inv l r t' op h
    · rfl
    · simp only [foldedNormal, hnb, ihl l' hl, ihr r' hr]; rfl

/-- A folded tree folds to itself. -/
theorem fold_fixed (t : Expression) :
    ∀ t', FoldConstants.transform t = some t' → FoldConstants.transform t' = some t' := by
  induction t with
  | Number value =>
    intro t' h
    simp only [FoldConstants.transform, newNumber, Option.some.injEq] at h
    rw [← h]; rfl
  | Variable name =>
    intro t' h
    simp only [FoldConstants.transform, newVariable, Option.some.injEq] at h
    rw [← h]; rfl
  | FunctionCall name arg ih =>
    intro t' h
    obtain ⟨a', ha, hn, ⟨_, v, _, rfl⟩ | ⟨hnb, rfl⟩⟩ := fold_fcall_inv arg t' name h
    · rfl
    · simp [FoldConstants.transform, ih a' ha, hnb, newFunctionCall, hn]
  | BinaryOperation l op r ihl ihr =>
    intro t' h
    obtain ⟨l', r', hl, hr, ⟨_, v, _, rfl⟩ | ⟨hnb, rfl⟩⟩ := fold_binop_inv l r t' op h
    · rfl
    · simp [FoldConstants.transform, ihl l' hl, ihr r' hr, hnb, newBinaryOperation]

theorem variableNames_of_isNumber (e : Expression) (h : isNumber e = true) :
    variableNames e = [] := by
  cases e <;> simp_all [isNumber, variableNames]

/-- A folded tree has the variables of the input, in the same order. -/
theorem fold_variableNames (t : Expression) :
    ∀ t', FoldConstants.transform t = some t' → variableNames t' = variableNames t := by
  induction t with
  | Number value =>
    intro t' h
    simp only [FoldConstants.transform, newNumber, Option.some.injEq] at h
    rw [← h]
  | Variable name =>
    intro t' h
    simp only [FoldConstants.transform, newVariable, Option.some.injEq] at h
    rw [← h]
  | FunctionCall name arg ih =>
    intro t' h
    obtain ⟨a', ha, _, ⟨hnb, v, _, rfl⟩ | ⟨_, rfl⟩⟩ := fold_fcall_inv arg t' name h
    · have := ih a' ha
      rw [variableNames_of_isNumber a' hnb] at this
      simp [variableNames, ← this]
    · simp [variableNames, ih a' ha]
  | BinaryOperation l op r ihl ihr =>
    intro t' h
    obtain ⟨l', r', hl, hr, ⟨hnb, v, _, rfl⟩ | ⟨_, rfl⟩⟩ := fold_binop_inv l r t' op h
    · simp only [Bool.and_eq_true] at hnb
      have h1 := ihl l' hl
      have h2 := ihr r' hr
      rw [variableNames_of_isNumber l' hnb.1] at h1
      rw [variableNames_of_isNumber r' hnb.2] at h2
      simp [variableNames, ← h1, ← h2]
    · simp [variableNames, ihl l' hl, ihr r' hr]

/-- A folded tree has at most the nodes and at most the depth of the input. -/
theorem fold_size_depth (t : Expression) :
    ∀ t', FoldConstants.transform t = some t' → size t' ≤ size t ∧ depth t' ≤ depth t := by
  induction t with
  | Number value =>
    intro t' h
    simp only [FoldConstants.transform, newNumber, Option.some.injEq] at h
    rw [← h]; exact ⟨le_refl _, le_refl _⟩
  | Variable name =>
    intro t' h
    simp only [FoldConstants.transform, newVariable, Option.some.injEq] at h
    rw [← h]; exact ⟨le_refl _, le_refl _⟩
  | FunctionCall name arg ih =>
    intro t' h
    obtain ⟨a', ha, _, ⟨_, v, _, rfl⟩ | ⟨_, rfl⟩⟩ := fold_fcall_inv arg t' name h
    · simp [size, depth]
    · have := ih a' ha
      simp only [size, depth]; omega
  | BinaryOperation l op r ihl ihr =>
    intro t' h
    obtain ⟨l', r', hl, hr, ⟨_, v, _, rfl⟩ | ⟨_, rfl⟩⟩ := fold_binop_inv l r t' op h
    · simp [size, depth]
    · have h1 := ihl l' hl
      have h2 := ihr r' hr
      simp only [size, depth]
      refine ⟨by omega, ?_⟩
      have := max_le_max h1.2 h2.2
      omega

theorem evaluate_binop_numbers (op : Int) (a b : Double) :
    evaluate (BinaryOperation (Number a) op (Number b)) = applyOperator op a b := by
  simp only [evaluate, applyOperator]

theorem evaluate_fcall_number (name : String) (a : Double) (hn : name = "sqrt" ∨ name = "abs") :
    evaluate (FunctionCall name (Number a)) = applyFunction name a := by
  rcases hn with h | h <;> subst h <;> simp [evaluate, applyFunction]

/-- On a valid tree `FoldConstants` returns what the direct variant returns. -/
theorem fold_eq_direct (t : Expression) (h : valid t = true) :
    FoldConstants.transform t = foldDirect t := by
  induction t with
  | Number value => rfl
  | Variable name => rfl
  | FunctionCall name arg ih =>
    obtain ⟨hn, ha⟩ := (valid_fcall name arg).1 h
    have iha := ih ha
    rw [FoldConstants.transform, foldDirect, ← iha]
    cases hf : FoldConstants.transform arg with
    | none => rfl
    | some a' =>
      cases a' with
      | Number a =>
        simp only [isNumber, if_true, newFunctionCall, hn, evaluate_fcall_number name a hn]
        cases applyFunction name a <;> rfl
      | BinaryOperation _ _ _ => simp [isNumber, newFunctionCall, hn]
      | FunctionCall _ _ => simp [isNumber, newFunctionCall, hn]
      | Variable _ => simp [isNumber, newFunctionCall, hn]
  | BinaryOperation l op r ihl ihr =>
    obtain ⟨_, hl, hr⟩ := (valid_binop l r op).1 h
    rw [FoldConstants.transform, foldDirect, ← ihl hl, ← ihr hr]
    cases hfl : FoldConstants.transform l with
    | none => rfl
    | some l' =>
      cases hfr : FoldConstants.transform r with
      | none => cases l' <;> rfl
      | some r' =>
        cases l' <;> cases r' <;>
          simp only [isNumber, Bool.and_self, Bool.and_true, Bool.and_false, if_true,
            newBinaryOperation, evaluate_binop_numbers, Bool.false_eq_true, if_false]
        case Number.Number a b => cases applyOperator op a b <;> rfl

/-! ## The claims on construction and on the shape of a folded tree -/

/-- C11: constructing a `FunctionCall` fails if and only if the argument is null or the name is
neither `sqrt` nor `abs`; `FunctionCall("log", n)` fails for every `n`, and
`FunctionCall("sqrt", n)` and `FunctionCall("abs", n)` succeed for every non-null `n`. -/
theorem functionCall_construction :
    (∀ (name : String) (arg : Option Expression),
      newFunctionCall name arg = none ↔ (arg = none ∨ ¬ (name = "sqrt" ∨ name = "abs"))) ∧
    (∀ n : Option Expression, newFunctionCall "log" n = none) ∧
    (∀ n : Expression, newFunctionCall "sqrt" (some n) = some (FunctionCall "sqrt" n)) ∧
    (∀ n : Expression, newFunctionCall "abs" (some n) = some (FunctionCall "abs" n)) := by
  refine ⟨?_, ?_, ?_, ?_⟩
  · intro name arg
    cases arg with
    | none => simp [newFunctionCall]
    | some a =>
      by_cases hn : name = "sqrt" ∨ name = "abs"
      · simp [newFunctionCall, hn]
      · simp [newFunctionCall, hn]
  · intro n
    cases n <;> simp [newFunctionCall]
  · intro n
    simp [newFunctionCall]
  · intro n
    simp [newFunctionCall]

/-- C12: constructing a `BinaryOperation` fails when the left or the right child is null, for
every operator code, and only then; `BinaryOperation(null, '+', n)` fails, and construction
over two non-null children succeeds (for a supported operator as for every other code). -/
theorem binaryOperation_construction :
    (∀ (left right : Option Expression) (op : Int),
      newBinaryOperation left op right = none ↔ (left = none ∨ right = none)) ∧
    (∀ n : Option Expression, newBinaryOperation none PLUS n = none) ∧
    (∀ (l r : Expression) (op : Int),
      newBinaryOperation (some l) op (some r) = some (BinaryOperation l op r)) := by
  refine ⟨?_, ?_, ?_⟩
  · intro left right op
    cases left <;> cases right <;> simp [newBinaryOperation]
  · intro n
    cases n <;> rfl
  · intro l r op
    rfl

/-- C13, the code at the failing input: the tree `abs(x % 2.0)`, with the operator code 37, is
built by the constructors without a failure, and `evaluate` returns no value on the
`BinaryOperation` node, hence none on the tree. -/
theorem evaluate_fails_on_constructed_tree :
    newVariable "x" = some (Variable "x") ∧
    newNumber 2.0 = some (Number 2.0) ∧
    newBinaryOperation (some (Variable "x")) 37 (some (Number 2.0))
      = some (BinaryOperation (Variable "x") 37 (Number 2.0)) ∧
    newFunctionCall "abs" (some (BinaryOperation (Variable "x") 37 (Number 2.0)))
      = some (FunctionCall "abs" (BinaryOperation (Variable "x") 37 (Number 2.0))) ∧
    evaluate (BinaryOperation (Variable "x") 37 (Number 2.0)) = none ∧
    evaluate (FunctionCall "abs" (BinaryOperation (Variable "x") 37 (Number 2.0))) = none := by
  decide

/-- C15: for every valid tree `t`, the tree that `FoldConstants` returns is in folded normal
form: no `BinaryOperation` node in it has two `Number` children and no `FunctionCall` node in it
has a `Number` argument. -/
theorem fold_result_normal (t : Expression) (h : valid t = true) :
    ∃ t', FoldConstants.transform t = some t' ∧ foldedNormal t' = true := by
  obtain ⟨t', hf, _⟩ := fold_core t h
  exact ⟨t', hf, fold_normal t t' hf⟩

theorem fold_result_normal_witness :
    valid callAbs = true ∧
      ∃ t', FoldConstants.transform callAbs = some t' ∧ foldedNormal t' = true :=
  ⟨by decide, fold_result_normal callAbs (by decide)⟩

/-- C16: for every valid tree `t`, folding the folded tree returns the folded tree itself, node
for node. -/
theorem fold_idempotent (t : Expression) (h : valid t = true) :
    ∃ t', FoldConstants.transform t = some t' ∧ FoldConstants.transform t' = some t' := by
  obtain ⟨t', hf, _⟩ := fold_core t h
  exact ⟨t', hf, fold_fixed t t' hf⟩

theorem fold_idempotent_witness :
    valid callAbs = true ∧
      ∃ t', FoldConstants.transform callAbs = some t' ∧ FoldConstants.transform t' = some t' :=
  ⟨by decide, fold_idempotent callAbs (by decide)⟩

/-- C17: for every valid tree `t`, the left-to-right sequence of `Variable` names of the folded
tree is the left-to-right sequence of `Variable` names of `t`. -/
theorem fold_keeps_variables (t : Expression) (h : valid t = true) :
    ∃ t', FoldConstants.transform t = some t' ∧ variableNames t' = variableNames t := by
  obtain ⟨t', hf, _⟩ := fold_core t h
  exact ⟨t', hf, fold_variableNames t t' hf⟩

theorem fold_keeps_variables_witness :
    valid (BinaryOperation (BinaryOperation (Variable "a") PLUS (Number 1.0)) MUL
        (BinaryOperation (FunctionCall "abs" (Number 2.0)) MINUS (Variable "b"))) = true ∧
      ∃ t', FoldConstants.transform
          (BinaryOperation (BinaryOperation (Variable "a") PLUS (Number 1.0)) MUL
            (BinaryOperation (FunctionCall "abs" (Number 2.0)) MINUS (Variable "b"))) = some t' ∧
        variableNames t' = variableNames
          (BinaryOperation (BinaryOperation (Variable "a") PLUS (Number 1.0)) MUL
            (BinaryOperation (FunctionCall "abs" (Number 2.0)) MINUS (Variable "b"))) :=
  ⟨by decide,
    fold_keeps_variables
      (BinaryOperation (BinaryOperation (Variable "a") PLUS (Number 1.0)) MUL
        (BinaryOperation (FunctionCall "abs" (Number 2.0)) MINUS (Variable "b")))
      (by decide)⟩

/-- C18: for every valid tree `t`, `CopySyntaxTree` and `FoldConstants` each return a complete
tree, so that no assertion of a constructor fails on the way (the temporary node of
`FoldConstants` included), and the tree returned is valid. -/
theorem transformers_preserve_validity (t : Expression) (h : valid t = true) :
    ∃ c f, CopySyntaxTree.transform t = some c ∧ valid c = true ∧
      FoldConstants.transform t = some f ∧ valid f = true := by
  obtain ⟨f, hf, _, _, hvf, _⟩ := fold_core t h
  exact ⟨t, f, copy_core t h, h, hf, hvf⟩

theorem transformers_preserve_validity_witness :
    valid callAbs = true ∧
      ∃ c f, CopySyntaxTree.transform callAbs = some c ∧ valid c = true ∧
        FoldConstants.transform callAbs = some f ∧ valid f = true :=
  ⟨by decide, transformers_preserve_validity callAbs (by decide)⟩

/-- C19: for every valid tree `t`, `FoldConstants` as written (temporary node, then `evaluate`)
returns a tree, and it is the tree that the direct variant `foldDirect` returns. -/
theorem fold_refines_direct (t : Expression) (h : valid t = true) :
    ∃ t', FoldConstants.transform t = some t' ∧ foldDirect t = some t' := by
  obtain ⟨t', hf, _⟩ := fold_core t h
  exact ⟨t', hf, (fold_eq_direct t h).symm.trans hf⟩

theorem fold_refines_direct_witness :
    valid callAbs = true ∧
      ∃ t', FoldConstants.transform callAbs = some t' ∧ foldDirect callAbs = some t' :=
  ⟨by decide, fold_refines_direct callAbs (by decide)⟩

/-- C20: for every valid tree `t`, the folded tree has at most as many nodes as `t` and at most
the nesting depth of `t`. -/
theorem fold_never_grows (t : Expression) (h : valid t = true) :
    ∃ t', FoldConstants.transform t = some t' ∧ size t' ≤ size t ∧ depth t' ≤ depth t := by
  obtain ⟨t', hf, _⟩ := fold_core t h
  exact ⟨t', hf, fold_size_depth t t' hf⟩

theorem fold_never_grows_witness :
    valid callAbs = true ∧
      ∃ t', FoldConstants.transform callAbs = some t' ∧ size t' ≤ size callAbs ∧
        depth t' ≤ depth callAbs :=
  ⟨by decide, fold_never_grows callAbs (by decide)⟩

/-! ## Lemmas on the heap -/

theorem lt_length_of_lookup (h : Heap) (p : Nat) (n : Node) (hp : h[p]? = some n) :
    p < h.length := by
  obtain ⟨hlt, _⟩ := List.getElem?_eq_some.1 hp
  exact hlt

/-- An object keeps its contents when the heap grows. -/
theorem lookup_append_of_some (h e : Heap) (p : Nat) (n : Node) (hp : h[p]? = some n) :
    (h ++ e)[p]? = some n := by
  rw [List.getElem?_append_left (lt_length_of_lookup h p n hp), hp]

/-- A tree in memory is the same tree after the heap has grown. -/
theorem treeAt_append (fuel : Nat) :
    ∀ (h e : Heap) (p : Nat) (t : Expression),
      treeAt fuel h p = some t → treeAt fuel (h ++ e) p = some t := by
  induction fuel with
  | zero => intro h e p t ht; simp [treeAt] at ht
  | succ f ih =>
    intro h e p t ht
    rw [treeAt] at ht
    rw [treeAt]
    cases hp : h[p]? with
    | none => simp [hp] at ht
    | some n =>
      rw [lookup_append_of_some h e p n hp]
      rw [hp] at ht
      cases n with
      | Number v => exact ht
      | Variable name => exact ht
      | FunctionCall name a =>
        cases ha : treeAt f h a with
        | none => simp [ha] at ht
        | some ta =>
          simp only [ha] at ht
          simp only [ih h e a ta ha]
          exact ht
      | BinaryOperation l op r =>
        cases hl : treeAt f h l with
        | none => simp [hl] at ht
        | some tl =>
          cases hr : treeAt f h r with
          | none => simp [hl, hr] at ht
          | some tr =>
            simp only [hl, hr] at ht
            simp only [ih h e l tl hl, ih h e r tr hr]
            exact ht

/-- The function `evaluate` on a tree in memory returns what it returns on the tree as a
value. -/
theorem evaluateAt_eq (fuel : Nat) :
    ∀ (h : Heap) (p : Nat) (t : Expression),
      treeAt fuel h p = some t → evaluateAt fuel h p = evaluate t := by
  induction fuel with
  | zero => intro h p t ht; simp [treeAt] at ht
  | succ f ih =>
    intro h p t ht
    rw [treeAt] at ht
    rw [evaluateAt]
    cases hp : h[p]? with
    | none => simp [hp] at ht
    | some n =>
      rw [hp] at ht
      cases n with
      | Number v =>
        simp only [Option.some.injEq] at ht
        rw [← ht]; rfl
      | Variable name =>
        simp only [Option.some.injEq] at ht
        rw [← ht]; rfl
      | FunctionCall name a =>
        cases ha : treeAt f h a with
        | none => simp [ha] at ht
        | some ta =>
          simp only [ha, Option.some.injEq] at ht
          rw [← ht]
          simp only [ih h a ta ha, evaluate]
      | BinaryOperation l op r =>
        cases hl : treeAt f h l with
        | none => simp [hl] at ht
        | some tl =>
          cases hr : treeAt f h r with
          | none => simp [hl, hr] at ht
          | some tr =>
            simp only [hl, hr, Option.some.injEq] at ht
            rw [← ht]
            simp only [ih h l tl hl, ih h r tr hr, evaluate]

/-- The cast `dynamic_cast<Number*>` on an address tests whether the tree there is a
`Number`. -/
theorem isNumberAt_eq (fuel : Nat) (h : Heap) (p : Nat) (t : Expression)
    (ht : treeAt fuel h p = some t) : isNumberAt h p = isNumber t := by
  cases fuel with
  | zero => simp [treeAt] at ht
  | succ f =>
    rw [treeAt] at ht
    rw [isNumberAt]
    cases hp : h[p]? with
    | none => simp [hp] at ht
    | some n =>
      rw [hp] at ht
      cases n with
      | Number v =>
        simp only [Option.some.injEq] at ht
        rw [← ht]; rfl
      | Variable name =>
        simp only [Option.some.injEq] at ht
        rw [← ht]; rfl
      | FunctionCall name a =>
        cases ha : treeAt f h a with
        | none => simp [ha] at ht
        | some ta =>
          simp only [ha, Option.some.injEq] at ht
          rw [← ht]; rfl
      | BinaryOperation l op r =>
        cases hl : treeAt f h l with
        | none => simp [hl] at ht
        | some tl =>
          cases hr : treeAt f h r with
          | none => simp [hl, hr] at ht
          | some tr =>
            simp only [hl, hr, Option.some.injEq] at ht
            rw [← ht]; rfl

/-- Every node of a tree in memory is an object of the heap. -/
theorem reachable_lt (fuel : Nat) :
    ∀ (h : Heap) (p q : Nat) (t : Expression),
      treeAt fuel h p = some t → Reachable h p q → q < h.length := by
  induction fuel with
  | zero => intro h p q t ht; simp [treeAt] at ht
  | succ f ih =>
    intro h p q t ht hr
    rw [treeAt] at ht
    cases hp : h[p]? with
    | none => simp [hp] at ht
    | some n =>
      rw [hp] at ht
      cases hr with
      | root => exact lt_length_of_lookup h p n hp
      | left _ l r _ op hn hq =>
        rw [hp, Option.some.injEq] at hn
        subst hn
        cases hl : treeAt f h l with
        | none => simp [hl] at ht
        | some tl => exact ih h l q tl hl hq
      | right _ l r _ op hn hq =>
        rw [hp, Option.some.injEq] at hn
        subst hn
        cases hr : treeAt f h r with
        | none => cases hl : treeAt f h l <;> simp [hl, hr] at ht
        | some tr => exact ih h r q tr hr hq
      | arg _ a _ name hn hq =>
        rw [hp, Option.some.injEq] at hn
        subst hn
        cases ha : treeAt f h a with
        | none => simp [ha] at ht
        | some ta => exact ih h a q ta ha hq

/-- The nodes of a tree in memory are the same after the heap has grown. -/
theorem reachable_of_append (fuel : Nat) :
    ∀ (h e : Heap) (p q : Nat) (t : Expression),
      treeAt fuel h p = some t → Reachable (h ++ e) p q → Reachable h p q := by
  induction fuel with
  | zero => intro h e p q t ht; simp [treeAt] at ht
  | succ f ih =>
    intro h e p q t ht hr
    rw [treeAt] at ht
    cases hp : h[p]? with
    | none => simp [hp] at ht
    | some n =>
      rw [hp] at ht
      have hp' := lookup_append_of_some h e p n hp
      cases hr with
      | root => exact Reachable.root p
      | left _ l r _ op hn hq =>
        rw [hp', Option.some.injEq] at hn
        subst hn
        cases hl : treeAt f h l with
        | none => simp [hl] at ht
        | some tl => exact Reachable.left p l r q op hp (ih h e l q tl hl hq)
      | right _ l r _ op hn hq =>
        rw [hp', Option.some.injEq] at hn
        subst hn
        cases hr : treeAt f h r with
        | none => cases hl : treeAt f h l <;> simp [hl, hr] at ht
        | some tr => exact Reachable.right p l r q op hp (ih h e r q tr hr hq)
      | arg _ a _ name hn hq =>
        rw [hp', Option.some.injEq] at hn
        subst hn
        cases ha : treeAt f h a with
        | none => simp [ha] at ht
        | some ta => exact Reachable.arg p a q name hp (ih h e a q ta ha hq)

theorem reachable_new_leaf (h : Heap) (n : Node) (q : Nat)
    (hn : (∃ v, n = Node.Number v) ∨ (∃ name, n = Node.Variable name))
    (hr : Reachable (h ++ [n]) h.length q) : q = h.length := by
  have hp := List.getElem?_concat_length h n
  cases hr with
  | root => rfl
  | left _ l r _ op hn' _ =>
    rw [hp, Option.some.injEq] at hn'
    rcases hn with ⟨v, rfl⟩ | ⟨name, rfl⟩ <;> cases hn'
  | right _ l r _ op hn' _ =>
    rw [hp, Option.some.injEq] at hn'
    rcases hn with ⟨v, rfl⟩ | ⟨name, rfl⟩ <;> cases hn'
  | arg _ a _ name hn' _ =>
    rw [hp, Option.some.injEq] at hn'
    rcases hn with ⟨v, rfl⟩ | ⟨name, rfl⟩ <;> cases hn'

theorem reachable_new_binop (h : Heap) (a b q : Nat) (op : Int)
    (hr : Reachable (h ++ [Node.BinaryOperation a op b]) h.length q) :
    q = h.length ∨ Reachable (h ++ [Node.BinaryOperation a op b]) a q ∨
      Reachable (h ++ [Node.BinaryOperation a op b]) b q := by
  have hp := List.getElem?_concat_length h (Node.BinaryOperation a op b)
  cases hr with
  | root => exact Or.inl rfl
  | left _ l r _ op' hn hq =>
    rw [hp, Option.some.injEq] at hn
    cases hn
    exact Or.inr (Or.inl hq)
  | right _ l r _ op' hn hq =>
    rw [hp, Option.some.injEq] at hn
    cases hn
    exact Or.inr (Or.inr hq)
  | arg _ a' _ name hn _ =>
    rw [hp, Option.some.injEq] at hn
    cases hn

theorem reachable_new_fcall (h : Heap) (a q : Nat) (name : String)
    (hr : Reachable (h ++ [Node.FunctionCall name a]) h.length q) :
    q = h.length ∨ Reachable (h ++ [Node.FunctionCall name a]) a q := by
  have hp := List.getElem?_concat_length h (Node.FunctionCall name a)
  cases hr with
  | root => exact Or.inl rfl
  | left _ l r _ op' hn _ =>
    rw [hp, Option.some.injEq] at hn
    cases hn
  | right _ l r _ op' hn _ =>
    rw [hp, Option.some.injEq] at hn
    cases hn
  | arg _ a' _ name' hn hq =>
    rw [hp, Option.some.injEq] at hn
    cases hn
    exact Or.inr hq

/-- The tree under a `BinaryOperation` object that has just been allocated. -/
theorem treeAt_new_binop (fuel : Nat) (h : Heap) (a b : Nat) (op : Int) (l r : Expression)
    (hl : treeAt fuel h a = some l) (hr : treeAt fuel h b = some r) :
    treeAt (fuel + 1) (h ++ [Node.BinaryOperation a op b]) h.length
      = some (BinaryOperation l op r) := by
  rw [treeAt, List.getElem?_concat_length]
  simp only [treeAt_append fuel h _ a l hl, treeAt_append fuel h _ b r hr]

/-- The tree under a `FunctionCall` object that has just been allocated. -/
theorem treeAt_new_fcall (fuel : Nat) (h : Heap) (a : Nat) (name : String) (t : Expression)
    (ha : treeAt fuel h a = some t) :
    treeAt (fuel + 1) (h ++ [Node.FunctionCall name a]) h.length
      = some (FunctionCall name t) := by
  rw [treeAt, List.getElem?_concat_length]
  simp only [treeAt_append fuel h _ a t ha]

/-- What `CopySyntaxTree` does in memory, on a valid tree: it returns, the heap has only grown,
the tree under the address returned is the input tree, and every node of it is new. -/
theorem copyAt_core (fuel : Nat) :
    ∀ (h : Heap) (p : Nat) (t : Expression),
      treeAt fuel h p = some t → valid t = true →
      ∃ h' p', CopySyntaxTree.transformAt fuel h p = some (h', p') ∧ (∃ e, h' = h ++ e) ∧
        treeAt fuel h' p' = some t ∧ ∀ q, Reachable h' p' q → h.length ≤ q := by
  induction fuel with
  | zero => intro h p t ht; simp [treeAt] at ht
  | succ f ih =>
    intro h p t ht hv
    rw [treeAt] at ht
    rw [CopySyntaxTree.transformAt]
    cases hp : h[p]? with
    | none => simp [hp] at ht
    | some n =>
      rw [hp] at ht
      cases n with
      | Number v =>
        simp only [Option.some.injEq] at ht
        subst ht
        refine ⟨h ++ [Node.Number v], h.length, rfl, ⟨_, rfl⟩, ?_, ?_⟩
        · rw [treeAt, List.getElem?_concat_length]
        · intro q hq
          rw [reachable_new_leaf h _ q (Or.inl ⟨v, rfl⟩) hq]
      | Variable name =>
        simp only [Option.some.injEq] at ht
        subst ht
        refine ⟨h ++ [Node.Variable name], h.length, rfl, ⟨_, rfl⟩, ?_, ?_⟩
        · rw [treeAt, List.getElem?_concat_length]
        · intro q hq
          rw [reachable_new_leaf h _ q (Or.inr ⟨name, rfl⟩) hq]
      | FunctionCall name a =>
        cases ha : treeAt f h a with
        | none => simp [ha] at ht
        | some ta =>
          simp only [ha, Option.some.injEq] at ht
          subst ht
          obtain ⟨hn, hva⟩ := (valid_fcall name ta).1 hv
          obtain ⟨h1, a', hc, ⟨e1, he1⟩, ht1, hf1⟩ := ih h a ta ha hva
          refine ⟨h1 ++ [Node.FunctionCall name a'], h1.length, ?_, ?_, ?_, ?_⟩
          · simp only [hc, hn, if_true, allocate]
          · exact ⟨e1 ++ [Node.FunctionCall name a'], by rw [he1, List.append_assoc]⟩
          · exact treeAt_new_fcall f h1 a' name ta ht1
          · intro q hq
            have hlen : h.length ≤ h1.length := by rw [he1]; simp
            rcases reachable_new_fcall h1 a' q name hq with rfl | hq'
            · exact hlen
            · exact hf1 q (reachable_of_append f h1 _ a' q ta ht1 hq')
      | BinaryOperation l op r =>
        cases hl : treeAt f h l with
        | none => simp [hl] at ht
        | some tl =>
          cases hr : treeAt f h r with
          | none => simp [hl, hr] at ht
          | some tr =>
            simp only [hl, hr, Option.some.injEq] at ht
            subst ht
            obtain ⟨_, hvl, hvr⟩ := (valid_binop tl tr op).1 hv
            obtain ⟨h1, a', hc1, ⟨e1, he1⟩, ht1, hf1⟩ := ih h l tl hl hvl
            have hr1 : treeAt f h1 r = some tr := by
              rw [he1]; exact treeAt_append f h e1 r tr hr
            obtain ⟨h2, b', hc2, ⟨e2, he2⟩, ht2, hf2⟩ := ih h1 r tr hr1 hvr
            have ht1' : treeAt f h2 a' = some tl := by
              rw [he2]; exact treeAt_append f h1 e2 a' tl ht1
            have hlen1 : h.length ≤ h1.length := by rw [he1]; simp
            have hlen2 : h1.length ≤ h2.length := by rw [he2]; simp
            refine ⟨h2 ++ [Node.BinaryOperation a' op b'], h2.length, ?_, ?_, ?_, ?_⟩
            · simp only [hc1, hc2, allocate]
            · exact ⟨e1 ++ (e2 ++ [Node.BinaryOperation a' op b']), by
                rw [he2, he1, List.append_assoc, List.append_assoc]⟩
            · exact treeAt_new_binop f h2 a' b' op tl tr ht1' ht2
            · intro q hq
              rcases reachable_new_binop h2 a' b' q op hq with rfl | hq' | hq'
              · omega
              · have hq1 := reachable_of_append f h2 _ a' q tl ht1' hq'
                rw [he2] at hq1
                exact hf1 q (reachable_of_append f h1 e2 a' q tl ht1 hq1)
              · have := hf2 q (reachable_of_append f h2 _ b' q tr ht2 hq')
                omega

/-- What `FoldConstants` does in memory, on a valid tree: it returns, the heap has only grown,
the tree under the address returned is the folded tree, and every node of it is new. -/
theorem foldAt_core (fuel : Nat) :
    ∀ (h : Heap) (p : Nat) (t : Expression),
      treeAt fuel h p = some t → valid t = true →
      ∃ h' p' t', FoldConstants.transformAt fuel h p = some (h', p') ∧ (∃ e, h' = h ++ e) ∧
        FoldConstants.transform t = some t' ∧
        treeAt fuel h' p' = some t' ∧ ∀ q, Reachable h' p' q → h.length ≤ q := by
  induction fuel with
  | zero => intro h p t ht; simp [treeAt] at ht
  | succ f ih =>
    intro h p t ht hv
    rw [treeAt] at ht
    rw [FoldConstants.transformAt]
    cases hp : h[p]? with
    | none => simp [hp] at ht
    | some n =>
      rw [hp] at ht
      cases n with
      | Number v =>
        simp only [Option.some.injEq] at ht
        subst ht
        refine ⟨h ++ [Node.Number v], h.length, Number v, rfl, ⟨_, rfl⟩, rfl, ?_, ?_⟩
        · rw [treeAt, List.getElem?_concat_length]
        · intro q hq
          rw [reachable_new_leaf h _ q (Or.inl ⟨v, rfl⟩) hq]
      | Variable name =>
        simp only [Option.some.injEq] at ht
        subst ht
        refine ⟨h ++ [Node.Variable name], h.length, Variable name, rfl, ⟨_, rfl⟩, rfl, ?_, ?_⟩
        · rw [treeAt, List.getElem?_concat_length]
        · intro q hq
          rw [reachable_new_leaf h _ q (Or.inr ⟨name, rfl⟩) hq]
      | FunctionCall name a =>
        cases ha : treeAt f h a with
        | none => simp [ha] at ht
        | some ta =>
          simp only [ha, Option.some.injEq] at ht
          subst ht
          obtain ⟨hn, hva⟩ := (valid_fcall name ta).1 hv
          obtain ⟨h1, a', ta', hc, ⟨e1, he1⟩, hfa, ht1, hf1⟩ := ih h a ta ha hva
          have hlen : h.length ≤ h1.length := by rw [he1]; simp
          have hnum := isNumberAt_eq f h1 a' ta' ht1
          have htmp := treeAt_new_fcall f h1 a' name ta' ht1
          cases hnb : isNumber ta' with
          | true =>
            obtain ⟨x, rfl⟩ := (isNumber_iff ta').1 hnb
            obtain ⟨w, hw⟩ := evaluate_fcall (Number x) name x rfl
            have hev := evaluateAt_eq (f + 1) _ _ _ htmp
            rw [hw] at hev
            refine ⟨(h1 ++ [Node.FunctionCall name a']) ++ [Node.Number w],
              (h1 ++ [Node.FunctionCall name a']).length, Number w, ?_, ?_, ?_, ?_, ?_⟩
            · simp only [hc, hn, if_true, hnum, hnb, allocate, hev]
            · exact ⟨e1 ++ ([Node.FunctionCall name a'] ++ [Node.Number w]), by
                rw [he1, List.append_assoc, List.append_assoc]⟩
            · simp [FoldConstants.transform, hfa, isNumber, newFunctionCall, hn, hw, newNumber]
            · rw [treeAt, List.getElem?_concat_length]
            · intro q hq
              rw [reachable_new_leaf _ _ q (Or.inl ⟨w, rfl⟩) hq]
              simp only [List.length_append, List.length_singleton]
              omega
          | false =>
            refine ⟨h1 ++ [Node.FunctionCall name a'], h1.length, FunctionCall name ta',
              ?_, ?_, ?_, htmp, ?_⟩
            · simp [hc, hn, hnum, hnb, allocate]
            · exact ⟨e1 ++ [Node.FunctionCall name a'], by rw [he1, List.append_assoc]⟩
            · simp [FoldConstants.transform, hfa, hnb, newFunctionCall, hn]
            · intro q hq
              rcases reachable_new_fcall h1 a' q name hq with rfl | hq'
              · exact hlen
              · exact hf1 q (reachable_of_append f h1 _ a' q ta' ht1 hq')
      | BinaryOperation l op r =>
        cases hl : treeAt f h l with
        | none => simp [hl] at ht
        | some tl =>
          cases hr : treeAt f h r with
          | none => simp [hl, hr] at ht
          | some tr =>
            simp only [hl, hr, Option.some.injEq] at ht
            subst ht
            obtain ⟨hop, hvl, hvr⟩ := (valid_binop tl tr op).1 hv
            obtain ⟨h1, a', tl', hc1, ⟨e1, he1⟩, hfl, ht1, hf1⟩ := ih h l tl hl hvl
            have hr1 : treeAt f h1 r = some tr := by
              rw [he1]; exact treeAt_append f h e1 r tr hr
            obtain ⟨h2, b', tr', hc2, ⟨e2, he2⟩, hfr, ht2, hf2⟩ := ih h1 r tr hr1 hvr
            have ht1' : treeAt f h2 a' = some tl' := by
              rw [he2]; exact treeAt_append f h1 e2 a' tl' ht1
            have hlen1 : h.length ≤ h1.length := by rw [he1]; simp
            have hlen2 : h1.length ≤ h2.length := by rw [he2]; simp
            have hnuml := isNumberAt_eq f h2 a' tl' ht1'
            have hnumr := isNumberAt_eq f h2 b' tr' ht2
            have htmp := treeAt_new_binop f h2 a' b' op tl' tr' ht1' ht2
            cases hnb : (isNumber tl' && isNumber tr') with
            | true =>
              simp only [Bool.and_eq_true] at hnb
              obtain ⟨x, rfl⟩ := (isNumber_iff tl').1 hnb.1
              obtain ⟨y, rfl⟩ := (isNumber_iff tr').1 hnb.2
              obtain ⟨w, hw⟩ := evaluate_binop (Number x) (Number y) op x y hop rfl rfl
              have hev := evaluateAt_eq (f + 1) _ _ _ htmp
              rw [hw] at hev
              refine ⟨(h2 ++ [Node.BinaryOperation a' op b']) ++ [Node.Number w],
                (h2 ++ [Node.BinaryOperation a' op b']).length, Number w, ?_, ?_, ?_, ?_, ?_⟩
              · simp only [hc1, hc2, hnuml, hnumr, isNumber, Bool.and_self, if_true, allocate,
                  hev]
              · exact ⟨e1 ++ (e2 ++ ([Node.BinaryOperation a' op b'] ++ [Node.Number w])), by
                  rw [he2, he1]; simp only [List.append_assoc]⟩
              · simp [FoldConstants.transform, hfl, hfr, isNumber, newBinaryOperation, hw,
                  newNumber]
              · rw [treeAt, List.getElem?_concat_length]
              · intro q hq
                rw [reachable_new_leaf _ _ q (Or.inl ⟨w, rfl⟩) hq]
                simp only [List.length_append, List.length_singleton]
                omega
            | false =>
              refine ⟨h2 ++ [Node.BinaryOperation a' op b'], h2.length,
                BinaryOperation tl' op tr', ?_, ?_, ?_, htmp, ?_⟩
              · simp [hc1, hc2, hnuml, hnumr, hnb, allocate]
              · exact ⟨e1 ++ (e2 ++ [Node.BinaryOperation a' op b']), by
                  rw [he2, he1, List.append_assoc, List.append_assoc]⟩
              · simp [FoldConstants.transform, hfl, hfr, hnb, newBinaryOperation]
              · intro q hq
                rcases reachable_new_binop h2 a' b' q op hq with rfl | hq' | hq'
                · omega
                · have hq1 := reachable_of_append f h2 _ a' q tl' ht1' hq'
                  rw [he2] at hq1
                  exact hf1 q (reachable_of_append f h1 e2 a' q tl' ht1 hq1)
                · have := hf2 q (reachable_of_append f h2 _ b' q tr' ht2 hq')
                  omega

/-- Whenever `CopySyntaxTree` returns in memory: the heap has only grown, the tree under the
address returned is the tree that the transformer returns on the value, and every node of it
is new. -/
theorem copyAt_sound (fuel : Nat) :
    ∀ (h : Heap) (p : Nat) (t : Expression) (h' : Heap) (p' : Nat),
      treeAt fuel h p = some t → CopySyntaxTree.transformAt fuel h p = some (h', p') →
      (∃ e, h' = h ++ e) ∧
        (∃ t', CopySyntaxTree.transform t = some t' ∧ treeAt fuel h' p' = some t') ∧
        ∀ q, Reachable h' p' q → h.length ≤ q := by
  induction fuel with
  | zero => intro h p t h' p' ht; simp [treeAt] at ht
  | succ f ih =>
    intro h p t h' p' ht hret
    rw [treeAt] at ht
    rw [CopySyntaxTree.transformAt] at hret
    cases hp : h[p]? with
    | none => simp [hp] at ht
    | some n =>
      rw [hp] at ht
      rw [hp] at hret
      cases n with
      | Number v =>
        simp only [Option.some.injEq] at ht
        subst ht
        simp only [allocate, Option.some.injEq, Prod.mk.injEq] at hret
        obtain ⟨rfl, rfl⟩ := hret
        refine ⟨⟨_, rfl⟩, ⟨Number v, rfl, ?_⟩, ?_⟩
        · rw [treeAt, List.getElem?_concat_length]
        · intro q hq
          rw [reachable_new_leaf h _ q (Or.inl ⟨v, rfl⟩) hq]
      | Variable name =>
        simp only [Option.some.injEq] at ht
        subst ht
        simp only [allocate, Option.some.injEq, Prod.mk.injEq] at hret
        obtain ⟨rfl, rfl⟩ := hret
        refine ⟨⟨_, rfl⟩, ⟨Variable name, rfl, ?_⟩, ?_⟩
        · rw [treeAt, List.getElem?_concat_length]
        · intro q hq
          rw [reachable_new_leaf h _ q (Or.inr ⟨name, rfl⟩) hq]
      | FunctionCall name a =>
        cases ha : treeAt f h a with
        | none => simp [ha] at ht
        | some ta =>
          simp only [ha, Option.some.injEq] at ht
          subst ht
          cases hc : CopySyntaxTree.transformAt f h a with
          | none => simp [hc] at hret
          | some r1 =>
            obtain ⟨h1, a'⟩ := r1
            obtain ⟨⟨e1, he1⟩, ⟨ta', hfa, ht1⟩, hf1⟩ := ih h a ta h1 a' ha hc
            have hlen : h.length ≤ h1.length := by rw [he1]; simp
            by_cases hn : name = "sqrt" ∨ name = "abs"
            · simp only [hc, hn, if_true, allocate, Option.some.injEq, Prod.mk.injEq] at hret
              obtain ⟨rfl, rfl⟩ := hret
              refine ⟨⟨e1 ++ [Node.FunctionCall name a'], by rw [he1, List.append_assoc]⟩,
                ⟨FunctionCall name ta', ?_, treeAt_new_fcall f h1 a' name ta' ht1⟩, ?_⟩
              · simp [CopySyntaxTree.transform, hfa, newFunctionCall, hn]
              · intro q hq
                rcases reachable_new_fcall h1 a' q name hq with rfl | hq'
                · exact hlen
                · exact hf1 q (reachable_of_append f h1 _ a' q ta' ht1 hq')
            · simp [hc, hn] at hret
      | BinaryOperation l op r =>
        cases hl : treeAt f h l with
        | none => simp [hl] at ht
        | some tl =>
          cases hr : treeAt f h r with
          | none => simp [hl, hr] at ht
          | some tr =>
            simp only [hl, hr, Option.some.injEq] at ht
            subst ht
            cases hc1 : CopySyntaxTree.transformAt f h l with
            | none => simp [hc1] at hret
            | some r1 =>
              obtain ⟨h1, a'⟩ := r1
              obtain ⟨⟨e1, he1⟩, ⟨tl', hfl, ht1⟩, hf1⟩ := ih h l tl h1 a' hl hc1
              have hr1 : treeAt f h1 r = some tr := by
                rw [he1]; exact treeAt_append f h e1 r tr hr
              cases hc2 : CopySyntaxTree.transformAt f h1 r with
              | none => simp [hc1, hc2] at hret
              | some r2 =>
                obtain ⟨h2, b'⟩ := r2
                obtain ⟨⟨e2, he2⟩, ⟨tr', hfr, ht2⟩, hf2⟩ := ih h1 r tr h2 b' hr1 hc2
                have ht1' : treeAt f h2 a' = some tl' := by
                  rw [he2]; exact treeAt_append f h1 e2 a' tl' ht1
                have hlen1 : h.length ≤ h1.length := by rw [he1]; simp
                have hlen2 : h1.length ≤ h2.length := by rw [he2]; simp
                simp only [hc1, hc2, allocate, Option.some.injEq, Prod.mk.injEq] at hret
                obtain ⟨rfl, rfl⟩ := hret
                refine ⟨⟨e1 ++ (e2 ++ [Node.BinaryOperation a' op b']), by
                    rw [he2, he1, List.append_assoc, List.append_assoc]⟩,
                  ⟨BinaryOperation tl' op tr', ?_,
                    treeAt_new_binop f h2 a' b' op tl' tr' ht1' ht2⟩, ?_⟩
                · simp [CopySyntaxTree.transform, hfl, hfr, newBinaryOperation]
                · intro q hq
                  rcases reachable_new_binop h2 a' b' q op hq with rfl | hq' | hq'
                  · omega
                  · have hq1 := reachable_of_append f h2 _ a' q tl' ht1' hq'
                    rw [he2] at hq1
                    exact hf1 q (reachable_of_append f h1 e2 a' q tl' ht1 hq1)
                  · have := hf2 q (reachable_of_append f h2 _ b' q tr' ht2 hq')
                    omega

/-- Whenever `FoldConstants` returns in memory: the heap has only grown, the tree under the
address returned is the tree that the transformer returns on the value, and every node of it
is new. -/
theorem foldAt_sound (fuel : Nat) :
    ∀ (h : Heap) (p : Nat) (t : Expression) (h' : Heap) (p' : Nat),
      treeAt fuel h p = some t → FoldConstants.transformAt fuel h p = some (h', p') →
      (∃ e, h' = h ++ e) ∧
        (∃ t', FoldConstants.transform t = some t' ∧ treeAt fuel h' p' = some t') ∧
        ∀ q, Reachable h' p' q → h.length ≤ q := by
  induction fuel with
  | zero => intro h p t h' p' ht; simp [treeAt] at ht
  | succ f ih =>
    intro h p t h' p' ht hret
    rw [treeAt] at ht
    rw [FoldConstants.transformAt] at hret
    cases hp : h[p]? with
    | none => simp [hp] at ht
    | some n =>
      rw [hp] at ht
      rw [hp] at hret
      cases n with
      | Number v =>
        simp only [Option.some.injEq] at ht
        subst ht
        simp only [allocate, Option.some.injEq, Prod.mk.injEq] at hret
        obtain ⟨rfl, rfl⟩ := hret
        refine ⟨⟨_, rfl⟩, ⟨Number v, rfl, ?_⟩, ?_⟩
        · rw [treeAt, List.getElem?_concat_length]
        · intro q hq
          rw [reachable_new_leaf h _ q (Or.inl ⟨v, rfl⟩) hq]
      | Variable name =>
        simp only [Option.some.injEq] at ht
        subst ht
        simp only [allocate, Option.some.injEq, Prod.mk.injEq] at hret
        obtain ⟨rfl, rfl⟩ := hret
        refine ⟨⟨_, rfl⟩, ⟨Variable name, rfl, ?_⟩, ?_⟩
        · rw [treeAt, List.getElem?_concat_length]
        · intro q hq
          rw [reachable_new_leaf h _ q (Or.inr ⟨name, rfl⟩) hq]
      | FunctionCall name a =>
        cases ha : treeAt f h a with
        | none => simp [ha] at ht
        | some ta =>
          simp only [ha, Option.some.injEq] at ht
          subst ht
          cases hc : FoldConstants.transformAt f h a with
          | none => simp [hc] at hret
          | some r1 =>
            obtain ⟨h1, a'⟩ := r1
            obtain ⟨⟨e1, he1⟩, ⟨ta', hfa, ht1⟩, hf1⟩ := ih h a ta h1 a' ha hc
            have hlen : h.length ≤ h1.length := by rw [he1]; simp
            have hnum := isNumberAt_eq f h1 a' ta' ht1
            have htmp := treeAt_new_fcall f h1 a' name ta' ht1
            have hev := evaluateAt_eq (f + 1) _ _ _ htmp
            by_cases hn : name = "sqrt" ∨ name = "abs"
            · cases hnb : isNumber ta' with
              | true =>
                simp only [hc, hn, if_true, hnum, hnb, allocate, hev] at hret
                cases hw : evaluate (FunctionCall name ta') with
                | none => simp [hw] at hret
                | some w =>
                  simp only [hw, Option.some.injEq, Prod.mk.injEq] at hret
                  obtain ⟨rfl, rfl⟩ := hret
                  refine ⟨⟨e1 ++ ([Node.FunctionCall name a'] ++ [Node.Number w]), by
                      rw [he1, List.append_assoc, List.append_assoc]⟩,
                    ⟨Number w, ?_, ?_⟩, ?_⟩
                  · simp [FoldConstants.transform, hfa, hnb, newFunctionCall, hn, hw, newNumber]
                  · rw [treeAt, List.getElem?_concat_length]
                  · intro q hq
                    rw [reachable_new_leaf _ _ q (Or.inl ⟨w, rfl⟩) hq]
                    simp only [List.length_append, List.length_singleton]
                    omega
              | false =>
                simp only [hc, hn, if_true, hnum, hnb, allocate, Bool.false_eq_true, if_false,
                  Option.some.injEq, Prod.mk.injEq] at hret
                obtain ⟨rfl, rfl⟩ := hret
                refine ⟨⟨e1 ++ [Node.FunctionCall name a'], by rw [he1, List.append_assoc]⟩,
                  ⟨FunctionCall name ta', ?_, htmp⟩, ?_⟩
                · simp [FoldConstants.transform, hfa, hnb, newFunctionCall, hn]
                · intro q hq
                  rcases reachable_new_fcall h1 a' q name hq with rfl | hq'
                  · exact hlen
                  · exact hf1 q (reachable_of_append f h1 _ a' q ta' ht1 hq')
            · simp [hc, hn] at hret
      | BinaryOperation l op r =>
        cases hl : treeAt f h l with
        | none => simp [hl] at ht
        | some tl =>
          cases hr : treeAt f h r with
          | none => simp [hl, hr] at ht
          | some tr =>
            simp only [hl, hr, Option.some.injEq] at ht
            subst ht
            cases hc1 : FoldConstants.transformAt f h l with
            | none => simp [hc1] at hret
            | some r1 =>
              obtain ⟨h1, a'⟩ := r1
              obtain ⟨⟨e1, he1⟩, ⟨tl', hfl, ht1⟩, hf1⟩ := ih h l tl h1 a' hl hc1
              have hr1 : treeAt f h1 r = some tr := by
                rw [he1]; exact treeAt_append f h e1 r tr hr
              cases hc2 : FoldConstants.transformAt f h1 r with
              | none => simp [hc1, hc2] at hret
              | some r2 =>
                obtain ⟨h2, b'⟩ := r2
                obtain ⟨⟨e2, he2⟩, ⟨tr', hfr, ht2⟩, hf2⟩ := ih h1 r tr h2 b' hr1 hc2
                have ht1' : treeAt f h2 a' = some tl' := by
                  rw [he2]; exact treeAt_append f h1 e2 a' tl' ht1
                have hlen1 : h.length ≤ h1.length := by rw [he1]; simp
                have hlen2 : h1.length ≤ h2.length := by rw [he2]; simp
                have hnuml := isNumberAt_eq f h2 a' tl' ht1'
                have hnumr := isNumberAt_eq f h2 b' tr' ht2
                have htmp := treeAt_new_binop f h2 a' b' op tl' tr' ht1' ht2
                have hev := evaluateAt_eq (f + 1) _ _ _ htmp
                cases hnb : (isNumber tl' && isNumber tr') with
                | true =>
                  simp only [hc1, hc2, hnuml, hnumr, hnb, if_true, allocate, hev] at hret
                  cases hw : evaluate (BinaryOperation tl' op tr') with
                  | none => simp [hw] at hret
                  | some w =>
                    simp only [hw, Option.some.injEq, Prod.mk.injEq] at hret
                    obtain ⟨rfl, rfl⟩ := hret
                    refine ⟨⟨e1 ++ (e2 ++ ([Node.BinaryOperation a' op b'] ++ [Node.Number w])),
                        by rw [he2, he1]; simp only [List.append_assoc]⟩,
                      ⟨Number w, ?_, ?_⟩, ?_⟩
                    · simp [FoldConstants.transform, hfl, hfr, hnb, newBinaryOperation, hw,
                        newNumber]
                    · rw [treeAt, List.getElem?_concat_length]
                    · intro q hq
                      rw [reachable_new_leaf _ _ q (Or.inl ⟨w, rfl⟩) hq]
                      simp only [List.length_append, List.length_singleton]
                      omega
                | false =>
                  simp only [hc1, hc2, hnuml, hnumr, hnb, allocate, Bool.false_eq_true, if_false,
                    Option.some.injEq, Prod.mk.injEq] at hret
                  obtain ⟨rfl, rfl⟩ := hret
                  refine ⟨⟨e1 ++ (e2 ++ [Node.BinaryOperation a' op b']), by
                      rw [he2, he1, List.append_assoc, List.append_assoc]⟩,
                    ⟨BinaryOperation tl' op tr', ?_, htmp⟩, ?_⟩
                  · simp [FoldConstants.transform, hfl, hfr, hnb, newBinaryOperation]
                  · intro q hq
                    rcases reachable_new_binop h2 a' b' q op hq with rfl | hq' | hq'
                    · omega
                    · have hq1 := reachable_of_append f h2 _ a' q tl' ht1' hq'
                      rw [he2] at hq1
                      exact hf1 q (reachable_of_append f h1 e2 a' q tl' ht1 hq1)
                    · have := hf2 q (reachable_of_append f h2 _ b' q tr' ht2 hq')
                      omega

/-- A tree in a heap that has only grown, with every node of it new, is independent of a tree
of the earlier heap. -/
theorem independent_of_fresh (fuel : Nat) (h e : Heap) (p p' : Nat) (t : Expression)
    (ht : treeAt fuel h p = some t)
    (hfresh : ∀ q, Reachable (h ++ e) p' q → h.length ≤ q) :
    Independent h p (h ++ e) p' := by
  refine ⟨fun a n ha => lookup_append_of_some h e a n ha, ?_⟩
  intro q hq
  refine ⟨hfresh q hq, ?_⟩
  intro hold
  have h1 := reachable_lt fuel h p q t ht (reachable_of_append fuel h e p q t ht hold)
  have h2 := hfresh q hq
  omega

/-! ## The claim on the nodes of the result -/

/-- C14: for every tree `t` in memory, at address `p` of a heap `h`: the tree that
`CopySyntaxTree` returns, and the tree that `FoldConstants` returns, shares no node with `t`
and `t` is left unmodified.  Every object of `h` is unchanged after the call and `t` is still
the tree at `p`; every node of the result (so every child pointer in it) is an object allocated
during the call, none is a node of `t`; and the result is the tree that the transformer returns
on the value `t`.  On a valid tree both calls return. -/
theorem transformers_share_no_node (fuel : Nat) (h : Heap) (p : Nat) (t : Expression)
    (ht : treeAt fuel h p = some t) :
    (∀ h' p', CopySyntaxTree.transformAt fuel h p = some (h', p') →
      Independent h p h' p' ∧ treeAt fuel h' p = some t ∧
        ∃ t', CopySyntaxTree.transform t = some t' ∧ treeAt fuel h' p' = some t') ∧
    (∀ h' p', FoldConstants.transformAt fuel h p = some (h', p') →
      Independent h p h' p' ∧ treeAt fuel h' p = some t ∧
        ∃ t', FoldConstants.transform t = some t' ∧ treeAt fuel h' p' = some t') ∧
    (valid t = true →
      (∃ h' p', CopySyntaxTree.transformAt fuel h p = some (h', p')) ∧
        ∃ h' p', FoldConstants.transformAt fuel h p = some (h', p')) := by
  refine ⟨?_, ?_, ?_⟩
  · intro h' p' hret
    obtain ⟨⟨e, rfl⟩, hres, hfresh⟩ := copyAt_sound fuel h p t h' p' ht hret
    exact ⟨independent_of_fresh fuel h e p p' t ht hfresh, treeAt_append fuel h e p t ht, hres⟩
  · intro h' p' hret
    obtain ⟨⟨e, rfl⟩, hres, hfresh⟩ := foldAt_sound fuel h p t h' p' ht hret
    exact ⟨independent_of_fresh fuel h e p p' t ht hfresh, treeAt_append fuel h e p t ht, hres⟩
  · intro hv
    obtain ⟨hc, pc, hcopy, _⟩ := copyAt_core fuel h p t ht hv
    obtain ⟨hf, pf, _, hfold, _⟩ := foldAt_core fuel h p t ht hv
    exact ⟨⟨hc, pc, hcopy⟩, ⟨hf, pf, hfold⟩⟩

theorem transformers_share_no_node_witness :
    treeAt 5 mainHeap 6 = some callAbs ∧
    ((∀ h' p', CopySyntaxTree.transformAt 5 mainHeap 6 = some (h', p') →
      Independent mainHeap 6 h' p' ∧ treeAt 5 h' 6 = some callAbs ∧
        ∃ t', CopySyntaxTree.transform callAbs = some t' ∧ treeAt 5 h' p' = some t') ∧
    (∀ h' p', FoldConstants.transformAt 5 mainHeap 6 = some (h', p') →
      Independent mainHeap 6 h' p' ∧ treeAt 5 h' 6 = some callAbs ∧
        ∃ t', FoldConstants.transform callAbs = some t' ∧ treeAt 5 h' p' = some t') ∧
    (valid callAbs = true →
      (∃ h' p', CopySyntaxTree.transformAt 5 mainHeap 6 = some (h', p')) ∧
        ∃ h' p', FoldConstants.transformAt 5 mainHeap 6 = some (h', p'))) :=
  ⟨by decide, transformers_share_no_node 5 mainHeap 6 callAbs (by decide)⟩

end Lab6
